import Mathlib

/-!
Verification of the Gate Assignment Engine of the airport_gate_planning
repository: a shallow embedding of `src/interval_partitioning.py` and of the
engine-level methods of `src/airport_planning.py` (the PyQt presentation layer
is out of scope), together with proofs about the embedded code.

Conventions of the embedding:
* Python lists become `List`; in-place index assignment `arr[i] = x` becomes
  `List.set`, and reading `arr[i]` becomes `List.getD i` with a default value
  (every read performed by the algorithms is in bounds, where `getD` agrees
  with the actual element).
* Times are natural numbers (minutes from midnight, as the source documents).
* The `heapq` priority queue of `(departure_time, gate_index)` pairs is
  modelled as a list kept sorted in ascending lexicographic order: `heappush`
  is ordered insertion, `heappop` is head/tail, and the peek `gates_heap[0]`
  is the head.  The only heap operations the source uses are push, pop-min
  and peek-min over pairwise distinct keys (gate indices are distinct), and
  for those a sorted list has exactly the observable behaviour of a binary
  heap, so this model is faithful.
* The in-place recursion of `quicksort` is bounded by the measure
  `high + 1 - low`; `quicksortF` takes that measure as an explicit structural
  fuel argument and `quicksort` instantiates it, which makes the function
  kernel-computable.  The fuel never runs out on the calls the source makes
  (the partition index always lies between `low` and `high`, proved below).
-/

/-- The `Aircraft` class of `interval_partitioning.py`: a code identifier and
arrival/departure times in minutes from midnight. -/
structure Aircraft where
  code : String
  arrival : Nat
  departure : Nat
deriving DecidableEq, Repr

/-- Default value used by out-of-bounds reads of the `getD` embedding of
Python list indexing (never reached by the algorithms on their actual calls). -/
def defaultAircraft : Aircraft := ⟨"", 0, 0⟩

/-- Reading `arr[i]` on a Python list of Aircraft. -/
def getA (arr : List Aircraft) (i : Nat) : Aircraft :=
  arr.getD i defaultAircraft

/-- The simultaneous assignment `arr[i], arr[j] = arr[j], arr[i]` used by
`partition`: both reads happen before both writes. -/
def swapA (arr : List Aircraft) (i j : Nat) : List Aircraft :=
  (arr.set i (getA arr j)).set j (getA arr i)

/-- The loop `for j in range(low, high)` inside `partition`
(src/interval_partitioning.py, lines 84-89), with `k` the number of remaining
iterations (`k = high - j`); `store` is Python's `i + 1`, so the source's
"i += 1 then swap arr[i], arr[j]" is "swap arr[store], arr[j] then
store += 1". -/
def partitionLoop (pivot : Nat) : List Aircraft → Nat → Nat → Nat → List Aircraft × Nat
  | arr, store, _, 0 => (arr, store)
  | arr, store, j, k + 1 =>
    if (getA arr j).arrival ≤ pivot then
      partitionLoop pivot (swapA arr store j) (store + 1) (j + 1) k
    else
      partitionLoop pivot arr store (j + 1) k

/-- The `partition` function of `interval_partitioning.py` (lines 65-93):
Lomuto partition of `arr[low..high]` with `arr[high].arrival` as pivot,
returning the updated array and the final pivot position. -/
def partition (arr : List Aircraft) (low high : Nat) : List Aircraft × Nat :=
  let pivot := (getA arr high).arrival
  let r := partitionLoop pivot arr low low (high - low)
  (swapA r.1 r.2 high, r.2)

/-- The recursion of `quicksort` (lines 95-119) with an explicit fuel bound;
the fuel is instantiated with the measure `high + 1 - low` by `quicksort`
below, which suffices for every call the source performs (each recursive call
strictly decreases the measure, as proved in `partitionLoop_spec` /
`quicksortF_spec`). -/
def quicksortF : Nat → List Aircraft → Nat → Nat → List Aircraft
  | 0, arr, _, _ => arr
  | f + 1, arr, low, high =>
    if low < high then
      let p := partition arr low high
      let arr2 := quicksortF f p.1 low (p.2 - 1)
      quicksortF f arr2 (p.2 + 1) high
    else arr

/-- The `quicksort` function of `interval_partitioning.py` (lines 95-119):
sorts `arr[low..high]` in place and returns the array. -/
def quicksort (arr : List Aircraft) (low high : Nat) : List Aircraft :=
  quicksortF (high + 1 - low) arr low high

/-- The `manual_sort_by_arrival` function of `interval_partitioning.py`
(lines 121-141). -/
def manual_sort_by_arrival (aircraft_list : List Aircraft) : List Aircraft :=
  if aircraft_list.isEmpty then []
  else quicksort aircraft_list 0 (aircraft_list.length - 1)

/-- Lexicographic order on the `(departure_time, gate_index)` pairs stored in
the heap, exactly Python's tuple comparison. -/
def pairLe (x y : Nat × Nat) : Prop :=
  x.1 < y.1 ∨ (x.1 = y.1 ∧ x.2 ≤ y.2)

instance : DecidableRel pairLe := fun x y => by
  unfold pairLe; infer_instance

/-- The `heappush` of the sorted-list heap model: ordered insertion keeping
the list sorted ascending, so that the head is always the heap minimum. -/
def heappush : List (Nat × Nat) → Nat × Nat → List (Nat × Nat)
  | [], x => [x]
  | y :: t, x => if pairLe x y then x :: y :: t else y :: heappush t x

/-- The gate-reuse test `gates_heap and gates_heap[0][0] <= plane.arrival` of
`interval_partitioning` (line 183): the earliest gate-availability time in the
heap is at most the arrival of the incoming plane. -/
def canReuse (gates_heap : List (Nat × Nat)) (plane : Aircraft) : Bool :=
  !gates_heap.isEmpty && decide ((gates_heap.headD (0, 0)).1 ≤ plane.arrival)

/-- The `for plane in sorted_aircrafts` loop of `interval_partitioning`
(lines 181-194).  `heappop` of the sorted-list model is head/tail. -/
def ipLoop : List Aircraft → List (List Aircraft) → List (Nat × Nat) → List (List Aircraft)
  | [], gate_assignments, _ => gate_assignments
  | plane :: rest, gate_assignments, gates_heap =>
    if canReuse gates_heap plane then
      let gate_index := (gates_heap.headD (0, 0)).2
      ipLoop rest
        (gate_assignments.set gate_index (gate_assignments.getD gate_index [] ++ [plane]))
        (heappush gates_heap.tail (plane.departure, gate_index))
    else
      let new_gate_index := gate_assignments.length
      ipLoop rest (gate_assignments ++ [[plane]])
        (heappush gates_heap (plane.departure, new_gate_index))

/-- The `interval_partitioning` function of `interval_partitioning.py`
(lines 143-197): returns `(num_gates, gate_assignments)`. -/
def interval_partitioning (aircrafts : List Aircraft) : Nat × List (List Aircraft) :=
  if aircrafts.isEmpty then (0, [])
  else
    let sorted_aircrafts := manual_sort_by_arrival aircrafts
    let gate_assignments := ipLoop sorted_aircrafts [] []
    (gate_assignments.length, gate_assignments)

/-- The contents of the caller's `aircrafts` list after `interval_partitioning`
returns: the call sorts the argument list in place through
`manual_sort_by_arrival` (line 174), so on non-empty input the caller's list
ends up in ascending-arrival order.  (On empty input the function returns at
line 171 before sorting.) -/
def interval_partitioning_arg (aircrafts : List Aircraft) : List Aircraft :=
  if aircrafts.isEmpty then aircrafts
  else manual_sort_by_arrival aircrafts

/-- The overlap check of `assign_flight_incrementally`
(src/airport_planning.py, line 179): there is a conflict when it is NOT true
that `new_plane.departure <= plane.arrival or new_plane.arrival >=
plane.departure`. -/
def conflictB (new_plane plane : Aircraft) : Bool :=
  !(decide (new_plane.departure ≤ plane.arrival) || decide (new_plane.arrival ≥ plane.departure))

/-- The inner `for plane in gate` loop of `assign_flight_incrementally`
(lines 175-181): a conflict is found iff some member of the gate conflicts
with the new plane (the source breaks at the first such member, which yields
the same Boolean). -/
def gateHasConflict (gate : List Aircraft) (new_plane : Aircraft) : Bool :=
  gate.any (conflictB new_plane)

/-- The `assign_flight_incrementally` method of `airport_planning.py`
(lines 162-190), as a function on the `gate_assignments` state: the new plane
is appended to the first gate in which no member conflicts with it; if every
gate has a conflict, a new gate holding only the new plane is appended. -/
def assign_flight_incrementally (gate_assignments : List (List Aircraft)) (new_plane : Aircraft) :
    List (List Aircraft) :=
  match gate_assignments with
  | [] => [[new_plane]]
  | gate :: rest =>
    if gateHasConflict gate new_plane then
      gate :: assign_flight_incrementally rest new_plane
    else
      (gate ++ [new_plane]) :: rest

/-- The mutable state of `AirportPlanningApp` that the engine operations read
and write: `aircraft_list`, `gates_needed` and `gate_assignments`. -/
structure PlanState where
  aircraft_list : List Aircraft
  gates_needed : Nat
  gate_assignments : List (List Aircraft)
deriving DecidableEq, Repr

/-- The `add_aircraft` method of `airport_planning.py` (lines 121-160), after
input parsing (its `to_m` has already turned the HH:MM strings into minutes).
If `departure <= arrival` it raises `ValueError("Departure must be after
arrival")`, which the method catches and surfaces as an error message, leaving
the state untouched; otherwise the new Aircraft is appended to
`aircraft_list` and placed by `assign_flight_incrementally`.  The result is
the state after the call plus the error message, if any. -/
def add_aircraft (s : PlanState) (code : String) (arrival departure : Nat) :
    PlanState × Option String :=
  if departure ≤ arrival then
    (s, some "Departure must be after arrival")
  else
    let aircraft : Aircraft := ⟨code, arrival, departure⟩
    ({ s with
        aircraft_list := s.aircraft_list ++ [aircraft],
        gate_assignments := assign_flight_incrementally s.gate_assignments aircraft },
     none)

/-- Insertion step of the descending sort used to model
`sorted(selected_rows, reverse=True)`. -/
def insertDesc (r : Nat) : List Nat → List Nat
  | [] => [r]
  | x :: t => if x ≤ r then r :: x :: t else x :: insertDesc r t

/-- Model of `sorted(selected_rows, reverse=True)`: the rows sorted in
descending order (on the duplicate-free sets the source builds, every correct
descending sort produces this same unique list). -/
def sortRowsDesc (rows : List Nat) : List Nat :=
  rows.foldr insertDesc []

/-- The `delete_selected_aircraft` method of `airport_planning.py`
(lines 192-228).  `selected_rows` is the set of selected table rows, modelled
as a duplicate-free list after `dedup`.  Step 1 pops those rows from
`aircraft_list` in descending row order (`list.pop(row)` is `eraseIdx` for
the in-range rows the table produces); the removals it also performs inside
the old gate lists are dropped from the model because step 2 overwrites
`gate_assignments` with `[]` before that intermediate value is ever read.
Step 3 re-runs `interval_partitioning` when aircraft remain (note that
`gates_needed` is updated only in that branch, exactly as in the source). -/
def delete_selected_aircraft (s : PlanState) (selected_rows : List Nat) : PlanState :=
  if selected_rows.isEmpty then s
  else
    let rows := sortRowsDesc selected_rows.dedup
    let remaining := rows.foldl (fun l r => l.eraseIdx r) s.aircraft_list
    let s1 : PlanState := { s with aircraft_list := remaining, gate_assignments := [] }
    if remaining.isEmpty then s1
    else
      let result := interval_partitioning remaining
      { s1 with gates_needed := result.1, gate_assignments := result.2 }

/-! Specification-side vocabulary: validity of a task, pointwise overlap
depth, the no-overlap relation, and list-segment helpers used to state what
the in-place sort does to the array. -/

/-- A valid task: departure strictly after arrival (the data-model invariant
of the spec). -/
def validA (a : Aircraft) : Prop := a.arrival < a.departure

/-- Instant `t` lies in the half-open interval `[arrival, departure)` of `a`. -/
def coversB (t : Nat) (a : Aircraft) : Bool :=
  decide (a.arrival ≤ t) && decide (t < a.departure)

/-- Number of tasks of `l` whose half-open interval contains the instant `t`
(the sweep-line overlap-depth oracle of the spec). -/
def depthAt (l : List Aircraft) (t : Nat) : Nat :=
  l.countP (coversB t)

/-- Ascending arrival order. -/
def arrLE (a b : Aircraft) : Prop := a.arrival ≤ b.arrival

/-- Two tasks do not overlap: one departs before (or as) the other arrives. -/
def noOv (a b : Aircraft) : Prop :=
  a.departure ≤ b.arrival ∨ b.departure ≤ a.arrival

/-- Chain relation inside one gate: each task departs no later than the next
task arrives. -/
def gateStep (a b : Aircraft) : Prop := a.departure ≤ b.arrival

/-- Last aircraft of a gate (the one whose departure keys the gate in the
heap). -/
def lastA (g : List Aircraft) : Aircraft := g.getLastD defaultAircraft

/-- The `n` elements of `arr` starting at index `lo`. -/
def segLen (arr : List Aircraft) (lo n : Nat) : List Aircraft :=
  (arr.drop lo).take n

/-- The segment `arr[lo..hi]` (inclusive bounds). -/
def seg (arr : List Aircraft) (lo hi : Nat) : List Aircraft :=
  segLen arr lo (hi + 1 - lo)

/-- Invariant of the `ipLoop` state, relative to the full sorted input `S` and
the prefix `P` of already-processed planes: the heap holds exactly one entry
per existing gate, keyed by the departure of that gate's last plane and kept
sorted; the gates partition `P`; each gate is a `gateStep` chain; and (for
valid input) some instant is covered by at least `gates.length` tasks. -/
def HeapInv (S : List Aircraft) (gates : List (List Aircraft))
    (heap : List (Nat × Nat)) (P : List Aircraft) : Prop :=
  ((heap.map Prod.snd).Perm (List.range gates.length)) ∧
  (∀ x ∈ heap, x.2 < gates.length ∧ gates.getD x.2 [] ≠ [] ∧
     x.1 = (lastA (gates.getD x.2 [])).departure) ∧
  heap.Pairwise pairLe ∧
  gates.flatten.Perm P ∧
  (∀ g ∈ gates, List.Chain' gateStep g) ∧
  ((∀ a ∈ S, validA a) → ∃ t, gates.length ≤ depthAt S t)

/-! Helper lemmas about the array-access embedding. -/

theorem getA_eq_getElem {arr : List Aircraft} {i : Nat} (h : i < arr.length) :
    getA arr i = arr[i] := by
  simp [getA, List.getD_eq_getElem?_getD, List.getElem?_eq_getElem h]

theorem getA_out_of_bounds {arr : List Aircraft} {k : Nat} (h : arr.length ≤ k) :
    getA arr k = defaultAircraft := by
  simp [getA, List.getD_eq_getElem?_getD, List.getElem?_eq_none h]

theorem length_swapA (arr : List Aircraft) (i j : Nat) :
    (swapA arr i j).length = arr.length := by
  simp [swapA]

theorem getA_swapA_right {arr : List Aircraft} {j : Nat} (i : Nat) (hj : j < arr.length) :
    getA (swapA arr i j) j = getA arr i := by
  have hj' : j < ((arr.set i (getA arr j)).set j (getA arr i)).length := by simpa using hj
  rw [swapA, getA_eq_getElem hj']
  simp

theorem getA_swapA_left {arr : List Aircraft} {i j : Nat} (hi : i < arr.length)
    (hij : i ≠ j) : getA (swapA arr i j) i = getA arr j := by
  have hi' : i < ((arr.set i (getA arr j)).set j (getA arr i)).length := by simpa using hi
  rw [swapA, getA_eq_getElem hi', List.getElem_set_ne (by omega), List.getElem_set_self]

theorem getA_swapA_other {arr : List Aircraft} {i j k : Nat} (hki : k ≠ i) (hkj : k ≠ j) :
    getA (swapA arr i j) k = getA arr k := by
  by_cases hk : k < arr.length
  · have hk' : k < ((arr.set i (getA arr j)).set j (getA arr i)).length := by simpa using hk
    rw [swapA, getA_eq_getElem hk', List.getElem_set_ne (by omega),
      List.getElem_set_ne (by omega), getA_eq_getElem hk]
  · have h1 := @getA_out_of_bounds arr k (by omega)
    have h2 := @getA_out_of_bounds (swapA arr i j) k (by rw [length_swapA]; omega)
    rw [h1, h2]

theorem set_cons_perm : ∀ (t : List Aircraft) (m : Nat) (a : Aircraft), m < t.length →
    (getA t m :: t.set m a).Perm (a :: t)
  | b :: t', 0, a, _ => by
    have hg : getA (b :: t') 0 = b := rfl
    rw [hg]
    exact List.Perm.swap a b t'
  | b :: t', m' + 1, a, h => by
    have h' : m' < t'.length := by simpa using h
    have hg : getA (b :: t') (m' + 1) = getA t' m' := rfl
    have hs : (b :: t').set (m' + 1) a = b :: t'.set m' a := rfl
    rw [hg, hs]
    exact ((List.Perm.swap b (getA t' m') _).trans
      ((set_cons_perm t' m' a h').cons b)).trans (List.Perm.swap a b t')

theorem swapA_perm : ∀ (arr : List Aircraft) (i j : Nat), i < arr.length → j < arr.length →
    (swapA arr i j).Perm arr
  | a :: t, 0, 0, _, _ => by
    have h : swapA (a :: t) 0 0 = a :: t := rfl
    rw [h]
  | a :: t, 0, m + 1, _, hj => by
    have hm : m < t.length := by simpa using hj
    have h : swapA (a :: t) 0 (m + 1) = getA t m :: t.set m a := rfl
    rw [h]
    exact set_cons_perm t m a hm
  | a :: t, k + 1, 0, hi, _ => by
    have hk : k < t.length := by simpa using hi
    have h : swapA (a :: t) (k + 1) 0 = getA t k :: t.set k a := rfl
    rw [h]
    exact set_cons_perm t k a hk
  | a :: t, k + 1, m + 1, hi, hj => by
    have hk : k < t.length := by simpa using hi
    have hm : m < t.length := by simpa using hj
    have h : swapA (a :: t) (k + 1) (m + 1) = a :: swapA t k m := rfl
    rw [h]
    exact (swapA_perm t k m hk hm).cons a

/-! Lemmas about list segments. -/

theorem length_segLen {arr : List Aircraft} {lo n : Nat} (h : lo + n ≤ arr.length) :
    (segLen arr lo n).length = n := by
  simp [segLen]
  omega

theorem getA_segLen {arr : List Aircraft} {lo n i : Nat} (h : lo + n ≤ arr.length)
    (hi : i < n) : getA (segLen arr lo n) i = getA arr (lo + i) := by
  have h1 : i < (segLen arr lo n).length := by rw [length_segLen h]; exact hi
  have h2 : lo + i < arr.length := by omega
  rw [getA_eq_getElem h1, getA_eq_getElem h2]
  simp only [segLen]
  rw [List.getElem_take, List.getElem_drop]

theorem mem_segLen {arr : List Aircraft} {lo n : Nat} {x : Aircraft}
    (h : lo + n ≤ arr.length) :
    x ∈ segLen arr lo n ↔ ∃ k, lo ≤ k ∧ k < lo + n ∧ x = getA arr k := by
  rw [List.mem_iff_getElem]
  constructor
  · rintro ⟨i, hi, rfl⟩
    have hin : i < n := by rw [length_segLen h] at hi; exact hi
    refine ⟨lo + i, by omega, by omega, ?_⟩
    rw [← getA_segLen h hin, getA_eq_getElem hi]
  · rintro ⟨k, hk1, hk2, rfl⟩
    have hin : k - lo < n := by omega
    have hi : k - lo < (segLen arr lo n).length := by rw [length_segLen h]; exact hin
    refine ⟨k - lo, hi, ?_⟩
    rw [← getA_eq_getElem hi, getA_segLen h hin]
    congr 1
    omega

theorem segLen_congr {arr brr : List Aircraft} {lo n : Nat} (ha : lo + n ≤ arr.length)
    (hb : lo + n ≤ brr.length)
    (hpt : ∀ k, lo ≤ k → k < lo + n → getA arr k = getA brr k) :
    segLen arr lo n = segLen brr lo n := by
  apply List.ext_getElem
  · rw [length_segLen ha, length_segLen hb]
  · intro i h1 h2
    have hin : i < n := by rw [length_segLen ha] at h1; exact h1
    rw [← getA_eq_getElem h1, ← getA_eq_getElem h2, getA_segLen ha hin, getA_segLen hb hin]
    exact hpt (lo + i) (by omega) (by omega)

theorem segLen_decomp (arr : List Aircraft) (lo n : Nat) :
    arr = arr.take lo ++ segLen arr lo n ++ arr.drop (lo + n) := by
  have h1 : segLen arr lo n ++ arr.drop (lo + n) = arr.drop lo := by
    have := List.take_append_drop n (arr.drop lo)
    rwa [List.drop_drop] at this
  rw [List.append_assoc, h1, List.take_append_drop]

theorem take_congr_getA {arr brr : List Aircraft} {n : Nat} (ha : n ≤ arr.length)
    (hb : n ≤ brr.length) (hpt : ∀ k, k < n → getA arr k = getA brr k) :
    arr.take n = brr.take n := by
  apply List.ext_getElem
  · rw [List.length_take, List.length_take]; omega
  · intro i h1 h2
    have hi : i < n := by simp [List.length_take] at h1; omega
    have hia : i < arr.length := by omega
    have hib : i < brr.length := by omega
    rw [List.getElem_take, List.getElem_take, ← getA_eq_getElem hia, ← getA_eq_getElem hib]
    exact hpt i hi

theorem drop_congr_getA {arr brr : List Aircraft} {n : Nat} (hlen : arr.length = brr.length)
    (hpt : ∀ k, n ≤ k → getA arr k = getA brr k) :
    arr.drop n = brr.drop n := by
  apply List.ext_getElem
  · rw [List.length_drop, List.length_drop, hlen]
  · intro i h1 h2
    have hia : n + i < arr.length := by simp [List.length_drop] at h1; omega
    have hib : n + i < brr.length := by omega
    rw [List.getElem_drop, List.getElem_drop, ← getA_eq_getElem hia, ← getA_eq_getElem hib]
    exact hpt (n + i) (by omega)

theorem perm_segLen {arr brr : List Aircraft} {lo n : Nat} (hp : arr.Perm brr)
    (ha : lo + n ≤ arr.length)
    (hfr : ∀ k, k < lo ∨ lo + n ≤ k → getA arr k = getA brr k) :
    (segLen arr lo n).Perm (segLen brr lo n) := by
  have hlen : arr.length = brr.length := hp.length_eq
  have hb : lo + n ≤ brr.length := by omega
  have htake : arr.take lo = brr.take lo :=
    take_congr_getA (by omega) (by omega) (fun k hk => hfr k (Or.inl hk))
  have hdrop : arr.drop (lo + n) = brr.drop (lo + n) :=
    drop_congr_getA hlen (fun k hk => hfr k (Or.inr hk))
  have h1 := segLen_decomp arr lo n
  have h2 := segLen_decomp brr lo n
  rw [h1, h2, htake, hdrop] at hp
  rw [List.append_assoc, List.append_assoc] at hp
  have hp2 := (List.perm_append_left_iff (brr.take lo)).1 hp
  exact (List.perm_append_right_iff (brr.drop (lo + n))).1 hp2

theorem segLen_split {arr : List Aircraft} {lo n m : Nat} (h : lo + n ≤ arr.length)
    (hm : m < n) :
    segLen arr lo n =
      segLen arr lo m ++ getA arr (lo + m) :: segLen arr (lo + m + 1) (n - m - 1) := by
  have hsplit := (List.take_append_drop m (segLen arr lo n)).symm
  have htake : (segLen arr lo n).take m = segLen arr lo m := by
    simp only [segLen, List.take_take]
    congr 1
    omega
  have hdrop : (segLen arr lo n).drop m = getA arr (lo + m) :: segLen arr (lo + m + 1) (n - m - 1) := by
    simp only [segLen]
    rw [List.drop_take, List.drop_drop]
    have hbound : lo + m < arr.length := by omega
    rw [List.drop_eq_getElem_cons hbound, ← getA_eq_getElem hbound]
    have hnm : n - m = (n - m - 1) + 1 := by omega
    rw [hnm, List.take_succ_cons]
    simp
  rw [hsplit, htake, hdrop]

theorem segLen_singleton {arr : List Aircraft} {lo : Nat} (h : lo < arr.length) :
    segLen arr lo 1 = [getA arr lo] := by
  simp only [segLen]
  rw [List.drop_eq_getElem_cons h, List.take_succ_cons, List.take_zero, ← getA_eq_getElem h]

theorem segLen_full {arr : List Aircraft} {n : Nat} (h : arr.length ≤ n) :
    segLen arr 0 n = arr := by
  simp [segLen, List.take_of_length_le h]

/-! Specification of the Lomuto partition loop and of `partition`. -/

theorem partitionLoop_spec (pivot : Nat) :
    ∀ (k : Nat) (arr : List Aircraft) (store j : Nat) (a : List Aircraft) (s : Nat),
      partitionLoop pivot arr store j k = (a, s) →
      store ≤ j → j + k ≤ arr.length →
      (∀ m, store ≤ m → m < j → pivot < (getA arr m).arrival) →
      (a.length = arr.length ∧ store ≤ s ∧ s ≤ j + k ∧ a.Perm arr ∧
       (∀ m, m < store ∨ j + k ≤ m → getA a m = getA arr m) ∧
       (∀ m, store ≤ m → m < s → (getA a m).arrival ≤ pivot) ∧
       (∀ m, s ≤ m → m < j + k → pivot < (getA a m).arrival)) := by
  intro k
  induction k with
  | zero =>
    intro arr store j a s heq hsj hlen hmid
    simp only [partitionLoop] at heq
    cases heq
    exact ⟨rfl, le_refl _, by omega, List.Perm.refl _, fun m _ => rfl,
      fun m h1 h2 => absurd h2 (by omega),
      fun m h1 h2 => hmid m (by omega) (by omega)⟩
  | succ k ih =>
    intro arr store j a s heq hsj hlen hmid
    simp only [partitionLoop] at heq
    have hjlen : j < arr.length := by omega
    have hslen : store < arr.length := by omega
    by_cases hcond : (getA arr j).arrival ≤ pivot
    · rw [if_pos hcond] at heq
      have hmid' : ∀ m, store + 1 ≤ m → m < j + 1 →
          pivot < (getA (swapA arr store j) m).arrival := by
        intro m hm1 hm2
        by_cases hmj : m = j
        · subst hmj
          rw [getA_swapA_right store hjlen]
          exact hmid store (le_refl _) (by omega)
        · rw [getA_swapA_other (by omega) hmj]
          exact hmid m (by omega) (by omega)
      obtain ⟨L1, L2, L3, L4, L5, L6, L7⟩ :=
        ih (swapA arr store j) (store + 1) (j + 1) a s heq (by omega)
          (by rw [length_swapA]; omega) hmid'
      refine ⟨L1.trans (length_swapA ..), by omega, by omega,
        L4.trans (swapA_perm arr store j hslen hjlen), ?_, ?_, ?_⟩
      · intro m hm
        have hfr : getA a m = getA (swapA arr store j) m := by
          rcases hm with h | h
          · exact L5 m (Or.inl (by omega))
          · exact L5 m (Or.inr (by omega))
        rw [hfr]
        exact getA_swapA_other (by omega) (by omega)
      · intro m hm1 hm2
        by_cases hms : m = store
        · have hfr : getA a m = getA (swapA arr store j) m := L5 m (Or.inl (by omega))
          rw [hfr, hms]
          by_cases hsj' : store = j
          · rw [hsj', getA_swapA_right j hjlen]
            exact hcond
          · rw [getA_swapA_left hslen hsj']
            exact hcond
        · exact L6 m (by omega) hm2
      · intro m hm1 hm2
        exact L7 m hm1 (by omega)
    · rw [if_neg hcond] at heq
      have hmid' : ∀ m, store ≤ m → m < j + 1 → pivot < (getA arr m).arrival := by
        intro m hm1 hm2
        by_cases hmj : m = j
        · subst hmj; omega
        · exact hmid m hm1 (by omega)
      obtain ⟨L1, L2, L3, L4, L5, L6, L7⟩ :=
        ih arr store (j + 1) a s heq (by omega) (by omega) hmid'
      refine ⟨L1, L2, by omega, L4, ?_, L6, ?_⟩
      · intro m hm
        rcases hm with h | h
        · exact L5 m (Or.inl h)
        · exact L5 m (Or.inr (by omega))
      · intro m hm1 hm2
        exact L7 m hm1 (by omega)

theorem partition_spec {arr : List Aircraft} {low high : Nat} (hlh : low ≤ high)
    (hh : high < arr.length) :
    (partition arr low high).1.length = arr.length ∧
    low ≤ (partition arr low high).2 ∧ (partition arr low high).2 ≤ high ∧
    (partition arr low high).1.Perm arr ∧
    (∀ m, m < low ∨ high < m → getA (partition arr low high).1 m = getA arr m) ∧
    getA (partition arr low high).1 (partition arr low high).2 = getA arr high ∧
    (∀ m, low ≤ m → m < (partition arr low high).2 →
       (getA (partition arr low high).1 m).arrival ≤ (getA arr high).arrival) ∧
    (∀ m, (partition arr low high).2 < m → m ≤ high →
       (getA arr high).arrival < (getA (partition arr low high).1 m).arrival) := by
  rcases hpl : partitionLoop ((getA arr high).arrival) arr low low (high - low) with ⟨a, s⟩
  have hP : partition arr low high = (swapA a s high, s) := by
    simp [partition, hpl]
  obtain ⟨L1, L2, L3, L4, L5, L6, L7⟩ :=
    partitionLoop_spec ((getA arr high).arrival) (high - low) arr low low a s hpl
      (le_refl _) (by omega) (by intro m h1 h2; exact absurd h2 (by omega))
  have hjk : low + (high - low) = high := by omega
  rw [hjk] at L3 L5 L7
  have hsa : s < a.length := by omega
  have hha : high < a.length := by omega
  rw [hP]
  refine ⟨?_, L2, L3, ?_, ?_, ?_, ?_, ?_⟩
  · rw [length_swapA, L1]
  · exact (swapA_perm a s high hsa hha).trans L4
  · intro m hm
    have h1 : getA (swapA a s high) m = getA a m := getA_swapA_other (by omega) (by omega)
    rw [h1]
    rcases hm with h | h
    · exact L5 m (Or.inl h)
    · exact L5 m (Or.inr (by omega))
  · by_cases hsh : s = high
    · subst hsh
      rw [getA_swapA_right s hha]
      exact L5 s (Or.inr (le_refl _))
    · rw [getA_swapA_left hsa hsh]
      exact L5 high (Or.inr (le_refl _))
  · intro m hm1 hm2
    have h1 : getA (swapA a s high) m = getA a m := getA_swapA_other (by omega) (by omega)
    rw [h1]
    exact L6 m hm1 hm2
  · intro m hm1 hm2
    by_cases hmh : m = high
    · subst hmh
      rw [getA_swapA_right s hha]
      exact L7 s (le_refl _) (by omega)
    · have h1 : getA (swapA a s high) m = getA a m := getA_swapA_other (by omega) hmh
      rw [h1]
      exact L7 m (by omega) (by omega)

/-! Specification of `quicksortF`: on sufficient fuel it permutes the segment
`[low..high]` into ascending arrival order and leaves everything else
untouched. -/

theorem quicksortF_stop {f : Nat} {arr : List Aircraft} {low high : Nat}
    (h : ¬ low < high) : quicksortF f arr low high = arr := by
  cases f with
  | zero => rfl
  | succ f => simp only [quicksortF, if_neg h]

theorem quicksortF_spec :
    ∀ (f : Nat) (arr : List Aircraft) (low high : Nat),
      high + 1 - low ≤ f → high < arr.length →
      ((quicksortF f arr low high).length = arr.length ∧
       (quicksortF f arr low high).Perm arr ∧
       (∀ m, m < low ∨ high < m → getA (quicksortF f arr low high) m = getA arr m) ∧
       List.Pairwise arrLE (seg (quicksortF f arr low high) low high)) := by
  intro f
  induction f with
  | zero =>
    intro arr low high hf hh
    have h0 : high + 1 - low = 0 := by omega
    refine ⟨rfl, List.Perm.refl _, fun m _ => rfl, ?_⟩
    simp [seg, h0, segLen]
  | succ f ih =>
    intro arr low high hf hh
    by_cases hlh : low < high
    case neg =>
      rw [quicksortF_stop hlh]
      refine ⟨rfl, List.Perm.refl _, fun m _ => rfl, ?_⟩
      by_cases heq : high + 1 - low = 1
      · have hlo : low = high := by omega
        rw [seg, heq, segLen_singleton (by omega)]
        exact List.pairwise_singleton _ _
      · have h0 : high + 1 - low = 0 := by omega
        simp [seg, h0, segLen]
    case pos =>
    rcases hpart : partition arr low high with ⟨a1, pi⟩
    have hspec := partition_spec (le_of_lt hlh) hh
    rw [hpart] at hspec
    dsimp only at hspec
    obtain ⟨P1, P2l, P2h, P4, P5, Ppiv, P6, P7⟩ := hspec
    have hunf : quicksortF (f + 1) arr low high =
        quicksortF f (quicksortF f a1 low (pi - 1)) (pi + 1) high := by
      simp only [quicksortF, if_pos hlh, hpart]
    have hh_left : pi - 1 < a1.length := by omega
    obtain ⟨Q1, Q2, Q3, Q4⟩ := ih a1 low (pi - 1) (by omega) hh_left
    have hh_right : high < (quicksortF f a1 low (pi - 1)).length := by rw [Q1, P1]; exact hh
    obtain ⟨R1, R2, R3, R4⟩ := ih (quicksortF f a1 low (pi - 1)) (pi + 1) high (by omega) hh_right
    -- frame of the left call, strengthened to cover index `pi` even when `pi = 0`
    have hQ3' : ∀ m, pi ≤ m → getA (quicksortF f a1 low (pi - 1)) m = getA a1 m := by
      intro m hm
      by_cases hpi0 : pi = 0
      · have hstop : quicksortF f a1 low (pi - 1) = a1 := quicksortF_stop (by omega)
        rw [hstop]
      · exact Q3 m (Or.inr (by omega))
    have hlen2 : (quicksortF f a1 low (pi - 1)).length = arr.length := Q1.trans P1
    have hlenr : (quicksortF f (quicksortF f a1 low (pi - 1)) (pi + 1) high).length = arr.length :=
      R1.trans hlen2
    rw [hunf]
    refine ⟨hlenr, (R2.trans Q2).trans P4, ?_, ?_⟩
    · intro m hm
      rcases hm with h | h
      · rw [R3 m (Or.inl (by omega)), Q3 m (Or.inl h)]
        exact P5 m (Or.inl h)
      · rw [R3 m (Or.inr h), hQ3' m (by omega)]
        exact P5 m (Or.inr h)
    · -- sortedness of the whole segment
      have hsplit := @segLen_split (quicksortF f (quicksortF f a1 low (pi - 1)) (pi + 1) high)
        low (high + 1 - low) (pi - low) (by omega) (by omega)
      have e1 : low + (pi - low) = pi := by omega
      have e2 : high + 1 - low - (pi - low) - 1 = high - pi := by omega
      rw [e1, e2] at hsplit
      rw [seg, hsplit, List.pairwise_append]
      -- the left part of the final array equals the left part after the left call
      have hLeq : segLen (quicksortF f (quicksortF f a1 low (pi - 1)) (pi + 1) high) low (pi - low) =
          segLen (quicksortF f a1 low (pi - 1)) low (pi - low) := by
        apply segLen_congr (by omega) (by rw [hlen2]; omega)
        intro k hk1 hk2
        exact R3 k (Or.inl (by omega))
      -- membership bound for the left part
      have hmemL : ∀ x ∈ segLen (quicksortF f (quicksortF f a1 low (pi - 1)) (pi + 1) high)
          low (pi - low), x.arrival ≤ (getA arr high).arrival := by
        intro x hx
        rw [hLeq] at hx
        have hperm : (segLen (quicksortF f a1 low (pi - 1)) low (pi - low)).Perm
            (segLen a1 low (pi - low)) := by
          apply perm_segLen Q2 (by rw [hlen2]; omega)
          intro k hk
          rcases hk with h | h
          · exact Q3 k (Or.inl h)
          · exact hQ3' k (by omega)
        have hx2 : x ∈ segLen a1 low (pi - low) := hperm.mem_iff.1 hx
        obtain ⟨k, hk1, hk2, rfl⟩ := (mem_segLen (by rw [P1]; omega)).1 hx2
        exact P6 k hk1 (by omega)
      -- the pivot element of the final array
      have hrpi : getA (quicksortF f (quicksortF f a1 low (pi - 1)) (pi + 1) high) pi
          = getA arr high := by
        rw [R3 pi (Or.inl (by omega)), hQ3' pi (le_refl _), Ppiv]
      -- membership bound for the right part
      have hmemR : ∀ y ∈ segLen (quicksortF f (quicksortF f a1 low (pi - 1)) (pi + 1) high)
          (pi + 1) (high - pi), (getA arr high).arrival < y.arrival := by
        intro y hy
        have hperm : (segLen (quicksortF f (quicksortF f a1 low (pi - 1)) (pi + 1) high)
            (pi + 1) (high - pi)).Perm
            (segLen (quicksortF f a1 low (pi - 1)) (pi + 1) (high - pi)) := by
          apply perm_segLen R2 (by omega)
          intro k hk
          rcases hk with h | h
          · exact R3 k (Or.inl h)
          · exact R3 k (Or.inr (by omega))
        have heq2 : segLen (quicksortF f a1 low (pi - 1)) (pi + 1) (high - pi) =
            segLen a1 (pi + 1) (high - pi) := by
          apply segLen_congr (by rw [hlen2]; omega) (by rw [P1]; omega)
          intro k hk1 hk2
          exact hQ3' k (by omega)
        have hy2 : y ∈ segLen a1 (pi + 1) (high - pi) := by
          rw [← heq2]
          exact hperm.mem_iff.1 hy
        obtain ⟨k, hk1, hk2, rfl⟩ := (mem_segLen (by rw [P1]; omega)).1 hy2
        exact P7 k (by omega) (by omega)
      refine ⟨?_, ?_, ?_⟩
      · -- left part sorted
        rw [hLeq]
        by_cases hpil : low < pi
        · have hseg : segLen (quicksortF f a1 low (pi - 1)) low (pi - low) =
              seg (quicksortF f a1 low (pi - 1)) low (pi - 1) := by
            rw [seg]
            congr 1
            omega
          rw [hseg]
          exact Q4
        · have h0 : pi - low = 0 := by omega
          simp [h0, segLen]
      · -- pivot-cons-right sorted
        rw [List.pairwise_cons]
        constructor
        · intro y hy
          have := hmemR y hy
          unfold arrLE
          rw [hrpi]
          omega
        · have hseg : segLen (quicksortF f (quicksortF f a1 low (pi - 1)) (pi + 1) high)
              (pi + 1) (high - pi) =
              seg (quicksortF f (quicksortF f a1 low (pi - 1)) (pi + 1) high) (pi + 1) high := by
            rw [seg]
            congr 1
            omega
          rw [hseg]
          exact R4
      · -- everything on the left is below the pivot and the right part
        intro x hx y hy
        have hxb := hmemL x hx
        rcases List.mem_cons.1 hy with hy1 | hy2
        · unfold arrLE
          rw [hy1, hrpi]
          omega
        · have := hmemR y hy2
          unfold arrLE
          omega

/-! Consequences for `manual_sort_by_arrival`. -/

theorem manual_sort_perm (l : List Aircraft) : (manual_sort_by_arrival l).Perm l := by
  cases l with
  | nil => rfl
  | cons x t =>
    have hne : (x :: t).isEmpty = false := rfl
    rw [manual_sort_by_arrival, hne]
    obtain ⟨_, h2, _, _⟩ := quicksortF_spec ((x :: t).length - 1 + 1 - 0) (x :: t) 0
      ((x :: t).length - 1) (le_refl _) (by simp)
    exact h2

theorem manual_sort_sorted (l : List Aircraft) :
    List.Pairwise arrLE (manual_sort_by_arrival l) := by
  cases l with
  | nil => exact List.Pairwise.nil
  | cons x t =>
    have hne : (x :: t).isEmpty = false := rfl
    rw [manual_sort_by_arrival, hne]
    obtain ⟨h1, _, _, h4⟩ := quicksortF_spec ((x :: t).length - 1 + 1 - 0) (x :: t) 0
      ((x :: t).length - 1) (le_refl _) (by simp)
    rw [seg] at h4
    have hfull : segLen (quicksortF ((x :: t).length - 1 + 1 - 0) (x :: t) 0
        ((x :: t).length - 1)) 0 ((x :: t).length - 1 + 1 - 0) =
        quicksortF ((x :: t).length - 1 + 1 - 0) (x :: t) 0 ((x :: t).length - 1) := by
      apply segLen_full
      rw [h1]
      omega
    rw [hfull] at h4
    exact h4

/-! Lemmas about the sorted-list heap model. -/

theorem pairLe_total (x y : Nat × Nat) : pairLe x y ∨ pairLe y x := by
  unfold pairLe
  omega

theorem pairLe_trans {x y z : Nat × Nat} (h1 : pairLe x y) (h2 : pairLe y z) : pairLe x z := by
  unfold pairLe at *
  omega

theorem heappush_perm (h : List (Nat × Nat)) (x : Nat × Nat) :
    (heappush h x).Perm (x :: h) := by
  induction h with
  | nil => exact List.Perm.refl _
  | cons y t ih =>
    rw [heappush]
    by_cases hc : pairLe x y
    · rw [if_pos hc]
    · rw [if_neg hc]
      exact (ih.cons y).trans (List.Perm.swap x y t)

theorem heappush_sorted {h : List (Nat × Nat)} (hs : h.Pairwise pairLe) (x : Nat × Nat) :
    (heappush h x).Pairwise pairLe := by
  induction h with
  | nil => exact List.pairwise_singleton _ _
  | cons y t ih =>
    rw [List.pairwise_cons] at hs
    obtain ⟨hy, ht⟩ := hs
    rw [heappush]
    by_cases hc : pairLe x y
    · rw [if_pos hc]
      rw [List.pairwise_cons]
      refine ⟨?_, List.pairwise_cons.2 ⟨hy, ht⟩⟩
      intro z hz
      rcases List.mem_cons.1 hz with hz1 | hz2
      · rw [hz1]; exact hc
      · exact pairLe_trans hc (hy z hz2)
    · rw [if_neg hc]
      rw [List.pairwise_cons]
      refine ⟨?_, ih ht⟩
      intro z hz
      have hz2 : z ∈ x :: t := (heappush_perm t x).mem_iff.1 hz
      rcases List.mem_cons.1 hz2 with hz3 | hz4
      · rw [hz3]
        rcases pairLe_total x y with h | h
        · exact absurd h hc
        · exact h
      · exact hy z hz4

theorem heappush_map_snd_perm (h : List (Nat × Nat)) (x : Nat × Nat) :
    ((heappush h x).map Prod.snd).Perm (x.2 :: h.map Prod.snd) := by
  have := (heappush_perm h x).map Prod.snd
  simpa using this

/-! Chains, pairwise non-overlap, and the covering count inside one gate. -/

theorem chain_head_le {a : Aircraft} {g : List Aircraft}
    (hch : List.Chain' gateStep (a :: g)) (hv : ∀ x ∈ a :: g, validA x) :
    ∀ b ∈ g, a.departure ≤ b.arrival := by
  induction g generalizing a with
  | nil => intro b hb; cases hb
  | cons c t ih =>
    intro b hb
    have hac : gateStep a c := List.chain'_cons.1 hch |>.1
    have hct : List.Chain' gateStep (c :: t) := List.chain'_cons.1 hch |>.2
    rcases List.mem_cons.1 hb with hb1 | hb2
    · rw [hb1]; exact hac
    · have hcb := ih hct (fun x hx => hv x (List.mem_cons_of_mem a hx)) b hb2
      have hvc : validA c := hv c (by simp)
      unfold gateStep at hac
      unfold validA at hvc
      omega

theorem chain_pairwise {g : List Aircraft} (hch : List.Chain' gateStep g)
    (hv : ∀ x ∈ g, validA x) : List.Pairwise gateStep g := by
  induction g with
  | nil => exact List.Pairwise.nil
  | cons a t ih =>
    rw [List.pairwise_cons]
    refine ⟨chain_head_le hch hv, ?_⟩
    exact ih (List.chain'_cons'.1 hch).2 (fun x hx => hv x (List.mem_cons_of_mem a hx))

theorem pairwise_noOv_of_chain {g : List Aircraft} (hch : List.Chain' gateStep g)
    (hv : ∀ x ∈ g, validA x) : List.Pairwise noOv g :=
  (chain_pairwise hch hv).imp (fun h => Or.inl h)

theorem countP_covers_le_one {g : List Aircraft} (t : Nat) (hch : List.Chain' gateStep g)
    (hv : ∀ x ∈ g, validA x) : g.countP (coversB t) ≤ 1 := by
  induction g with
  | nil => simp
  | cons a g' ih =>
    rw [List.countP_cons]
    by_cases hc : coversB t a = true
    · have hz : g'.countP (coversB t) = 0 := by
        rw [List.countP_eq_zero]
        intro b hb
        have hab := chain_head_le hch hv b hb
        simp only [coversB, Bool.and_eq_true, decide_eq_true_eq] at hc ⊢
        omega
      rw [hz]
      simp [hc]
    · have := ih (List.chain'_cons'.1 hch).2 (fun x hx => hv x (List.mem_cons_of_mem a hx))
      simp [hc]
      omega

theorem countP_ge_length {p : Aircraft → Bool} :
    ∀ (L : List (List Aircraft)), (∀ g ∈ L, 1 ≤ g.countP p) →
      L.length ≤ (L.map (List.countP p)).sum := by
  intro L
  induction L with
  | nil => intro _; simp
  | cons g L' ih =>
    intro h
    have h1 := h g (by simp)
    have h2 := ih (fun g' hg' => h g' (List.mem_cons_of_mem g hg'))
    simp only [List.map_cons, List.sum_cons, List.length_cons]
    omega

/-! Bookkeeping lemmas for the list of gates. -/

theorem gatesGetD_eq_getElem {gates : List (List Aircraft)} {i : Nat} (h : i < gates.length) :
    gates.getD i [] = gates[i] := by
  simp [List.getD_eq_getElem?_getD, List.getElem?_eq_getElem h]

theorem gatesGetD_set_self {gates : List (List Aircraft)} {i : Nat} (h : i < gates.length)
    (x : List Aircraft) : (gates.set i x).getD i [] = x := by
  have h' : i < (gates.set i x).length := by simpa using h
  rw [gatesGetD_eq_getElem h', List.getElem_set_self]

theorem gatesGetD_set_ne {gates : List (List Aircraft)} {i j : Nat} (hne : j ≠ i)
    (x : List Aircraft) : (gates.set i x).getD j [] = gates.getD j [] := by
  by_cases hj : j < gates.length
  · have hj' : j < (gates.set i x).length := by simpa using hj
    rw [gatesGetD_eq_getElem hj', gatesGetD_eq_getElem hj, List.getElem_set_ne (by omega)]
  · have hlen : (gates.set i x).length = gates.length := by simp
    have h1 : gates.getD j [] = [] := by
      simp [List.getD_eq_getElem?_getD,
        List.getElem?_eq_none (show gates.length ≤ j by omega)]
    have h2 : (gates.set i x).getD j [] = [] := by
      simp [List.getD_eq_getElem?_getD,
        List.getElem?_eq_none (show (gates.set i x).length ≤ j by omega)]
    rw [h1, h2]

theorem gatesGetD_concat_self (gates : List (List Aircraft)) (x : List Aircraft) :
    (gates ++ [x]).getD gates.length [] = x := by
  have h : gates.length < (gates ++ [x]).length := by simp
  rw [gatesGetD_eq_getElem h, List.getElem_concat_length _ _ _ rfl]

theorem gatesGetD_concat_lt {gates : List (List Aircraft)} {j : Nat} (h : j < gates.length)
    (x : List Aircraft) : (gates ++ [x]).getD j [] = gates.getD j [] := by
  have h' : j < (gates ++ [x]).length := by simp; omega
  rw [gatesGetD_eq_getElem h', gatesGetD_eq_getElem h, List.getElem_append_left]

theorem gatesGetD_mem {gates : List (List Aircraft)} {i : Nat} (h : i < gates.length) :
    gates.getD i [] ∈ gates := by
  rw [gatesGetD_eq_getElem h]
  exact List.getElem_mem h

theorem lastA_mem {g : List Aircraft} (h : g ≠ []) : lastA g ∈ g := by
  unfold lastA
  rw [List.getLastD_eq_getLast?, List.getLast?_eq_getLast g h]
  exact List.getLast_mem h

theorem lastA_concat (g : List Aircraft) (p : Aircraft) : lastA (g ++ [p]) = p := by
  unfold lastA
  exact List.getLastD_concat ..

theorem chain'_concat_of_lastA {g : List Aircraft} {p : Aircraft}
    (hch : List.Chain' gateStep g) (hle : (lastA g).departure ≤ p.arrival) :
    List.Chain' gateStep (g ++ [p]) := by
  rw [List.chain'_append]
  refine ⟨hch, List.chain'_singleton p, ?_⟩
  intro x hx y hy
  simp only [List.head?_cons, Option.mem_def, Option.some.injEq] at hy
  cases g with
  | nil => cases hx
  | cons a t =>
    have hne : (a :: t) ≠ ([] : List Aircraft) := by simp
    rw [List.getLast?_eq_getLast _ hne] at hx
    simp only [Option.mem_def, Option.some.injEq] at hx
    have hxl : x = lastA (a :: t) := by
      rw [← hx]
      unfold lastA
      rw [List.getLastD_eq_getLast?, List.getLast?_eq_getLast _ hne]
      rfl
    rw [hxl, ← hy]
    exact hle

theorem flatten_set_perm {gates : List (List Aircraft)} {gi : Nat} (h : gi < gates.length)
    (p : Aircraft) :
    (gates.set gi (gates.getD gi [] ++ [p])).flatten.Perm (gates.flatten ++ [p]) := by
  have hset : gates.set gi (gates.getD gi [] ++ [p]) =
      gates.take gi ++ (gates.getD gi [] ++ [p]) :: gates.drop (gi + 1) := by
    rw [List.set_eq_take_append_cons_drop, if_pos h]
  have hgates : gates = gates.take gi ++ gates.getD gi [] :: gates.drop (gi + 1) := by
    conv_lhs => rw [← List.take_append_drop gi gates]
    congr 1
    rw [List.drop_eq_getElem_cons h, gatesGetD_eq_getElem h]
  rw [hset]
  conv_rhs => rw [hgates]
  rw [List.flatten_append, List.flatten_append, List.flatten_cons, List.flatten_cons]
  rw [List.append_assoc, List.append_assoc, List.append_assoc]
  apply List.Perm.append_left
  apply List.Perm.append_left
  exact List.perm_append_comm

/-! The invariant of the greedy assignment loop. -/

theorem heap_keys_gt {heap : List (Nat × Nat)} {p : Aircraft}
    (hs : heap.Pairwise pairLe) (hcr : ¬ canReuse heap p = true) :
    ∀ x ∈ heap, p.arrival < x.1 := by
  cases heap with
  | nil => intro x hx; cases hx
  | cons hd0 hr0 =>
    have hgt : p.arrival < hd0.1 := by
      simp [canReuse] at hcr
      omega
    intro x hx
    rcases List.mem_cons.1 hx with hx1 | hx2
    · rw [hx1]; exact hgt
    · have h2 := (List.pairwise_cons.1 hs).1 x hx2
      unfold pairLe at h2
      omega

theorem ipLoop_master (S : List Aircraft) (hsort : List.Pairwise arrLE S) :
    ∀ (rem P : List Aircraft) (gates : List (List Aircraft)) (heap : List (Nat × Nat)),
      S = P ++ rem → HeapInv S gates heap P →
      ((ipLoop rem gates heap).flatten.Perm S ∧
       (∀ g ∈ ipLoop rem gates heap, List.Chain' gateStep g) ∧
       ((∀ a ∈ S, validA a) → ∃ t, (ipLoop rem gates heap).length ≤ depthAt S t)) := by
  intro rem
  induction rem with
  | nil =>
    intro P gates heap hS hinv
    obtain ⟨I1, I2, I3, I4, I5, I6⟩ := hinv
    rw [List.append_nil] at hS
    subst hS
    exact ⟨I4, I5, I6⟩
  | cons p rest ih =>
    intro P gates heap hS hinv
    obtain ⟨I1, I2, I3, I4, I5, I6⟩ := hinv
    have hS' : S = (P ++ [p]) ++ rest := by rw [hS, List.append_assoc]; rfl
    have hPle : ∀ a ∈ P, a.arrival ≤ p.arrival := by
      intro a ha
      exact (List.pairwise_append.1 (hS ▸ hsort)).2.2 a ha p (by simp)
    by_cases hcr : canReuse heap p = true
    case pos =>
      cases heap with
      | nil => simp [canReuse] at hcr
      | cons hd hr =>
        obtain ⟨d, gi⟩ := hd
        have hdle : d ≤ p.arrival := by
          simp [canReuse] at hcr
          exact hcr
        obtain ⟨hgi_lt, hg0_ne, hd_key⟩ := I2 (d, gi) (by simp)
        have hstep : ipLoop (p :: rest) gates ((d, gi) :: hr) =
            ipLoop rest (gates.set gi (gates.getD gi [] ++ [p]))
              (heappush hr (p.departure, gi)) := by
          simp only [ipLoop, List.headD_cons, List.tail_cons]
          rw [if_pos hcr]
        have hnodup : (((d, gi) :: hr).map Prod.snd).Nodup :=
          I1.nodup_iff.2 (List.nodup_range _)
        have hgi_not_hr : gi ∉ hr.map Prod.snd := by
          simp only [List.map_cons] at hnodup
          exact (List.nodup_cons.1 hnodup).1
        have hlen_set : (gates.set gi (gates.getD gi [] ++ [p])).length = gates.length := by
          simp
        have hinv' : HeapInv S (gates.set gi (gates.getD gi [] ++ [p]))
            (heappush hr (p.departure, gi)) (P ++ [p]) := by
          refine ⟨?_, ?_, ?_, ?_, ?_, ?_⟩
          · rw [hlen_set]
            exact (heappush_map_snd_perm hr (p.departure, gi)).trans I1
          · intro x hx
            have hx2 : x ∈ (p.departure, gi) :: hr := (heappush_perm hr _).mem_iff.1 hx
            rcases List.mem_cons.1 hx2 with hx3 | hx4
            · subst hx3
              refine ⟨by rw [hlen_set]; exact hgi_lt, ?_, ?_⟩
              · rw [gatesGetD_set_self hgi_lt]
                simp
              · rw [gatesGetD_set_self hgi_lt, lastA_concat]
            · have hx_heap : x ∈ (d, gi) :: hr := List.mem_cons_of_mem _ hx4
              obtain ⟨ha, hb, hc⟩ := I2 x hx_heap
              have hxne : x.2 ≠ gi := by
                intro hcontra
                apply hgi_not_hr
                rw [← hcontra]
                exact List.mem_map_of_mem Prod.snd hx4
              refine ⟨by rw [hlen_set]; exact ha, ?_, ?_⟩
              · rw [gatesGetD_set_ne hxne]; exact hb
              · rw [gatesGetD_set_ne hxne]; exact hc
          · exact heappush_sorted (List.pairwise_cons.1 I3).2 _
          · exact (flatten_set_perm hgi_lt p).trans (I4.append_right [p])
          · intro g hg
            rcases List.mem_or_eq_of_mem_set hg with hg1 | hg2
            · exact I5 g hg1
            · subst hg2
              apply chain'_concat_of_lastA (I5 _ (gatesGetD_mem hgi_lt))
              rw [← hd_key]
              exact hdle
          · intro hv
            obtain ⟨t, ht⟩ := I6 hv
            exact ⟨t, by rw [hlen_set]; exact ht⟩
        obtain ⟨C1, C2, C3⟩ := ih (P ++ [p]) _ _ hS' hinv'
        rw [hstep]
        exact ⟨C1, C2, C3⟩
    case neg =>
      have hstep : ipLoop (p :: rest) gates heap =
          ipLoop rest (gates ++ [[p]]) (heappush heap (p.departure, gates.length)) := by
        simp only [ipLoop]
        rw [if_neg hcr]
      have hlen : (gates ++ [[p]]).length = gates.length + 1 := by simp
      have hinv' : HeapInv S (gates ++ [[p]])
          (heappush heap (p.departure, gates.length)) (P ++ [p]) := by
        refine ⟨?_, ?_, ?_, ?_, ?_, ?_⟩
        · rw [hlen]
          refine (heappush_map_snd_perm heap _).trans ?_
          refine (I1.cons gates.length).trans ?_
          rw [List.range_succ]
          exact @List.perm_append_comm Nat [gates.length] (List.range gates.length)
        · intro x hx
          have hx2 : x ∈ (p.departure, gates.length) :: heap :=
            (heappush_perm heap _).mem_iff.1 hx
          rcases List.mem_cons.1 hx2 with hx3 | hx4
          · subst hx3
            refine ⟨by rw [hlen]; omega, ?_, ?_⟩
            · rw [gatesGetD_concat_self]; simp
            · rw [gatesGetD_concat_self]; rfl
          · obtain ⟨ha, hb, hc⟩ := I2 x hx4
            refine ⟨by rw [hlen]; omega, ?_, ?_⟩
            · rw [gatesGetD_concat_lt ha]; exact hb
            · rw [gatesGetD_concat_lt ha]; exact hc
        · exact heappush_sorted I3 _
        · rw [List.flatten_append]
          simp only [List.flatten_cons, List.flatten_nil, List.append_nil]
          exact I4.append_right [p]
        · intro g hg
          rcases List.mem_append.1 hg with hg1 | hg2
          · exact I5 g hg1
          · have hgp : g = [p] := by simpa using hg2
            rw [hgp]
            exact List.chain'_singleton p
        · intro hv
          have hp_mem : p ∈ S := by rw [hS]; simp
          have hvp : validA p := hv p hp_mem
          have hkeys := heap_keys_gt I3 hcr
          have hgate_cov : ∀ g ∈ gates, 1 ≤ g.countP (coversB p.arrival) := by
            intro g hg
            obtain ⟨i, hi, hgeq⟩ := List.mem_iff_getElem.1 hg
            have hi_mem : i ∈ heap.map Prod.snd := I1.mem_iff.2 (List.mem_range.2 hi)
            obtain ⟨x, hx_mem, hx_snd⟩ := List.mem_map.1 hi_mem
            obtain ⟨ha, hb, hc⟩ := I2 x hx_mem
            have hgD : gates.getD i [] = g := by rw [gatesGetD_eq_getElem hi, hgeq]
            rw [hx_snd, hgD] at hb hc
            have hlast_mem : lastA g ∈ g := lastA_mem hb
            have hlast_P : lastA g ∈ P :=
              I4.mem_iff.1 (List.mem_flatten_of_mem hg hlast_mem)
            have harr : (lastA g).arrival ≤ p.arrival := hPle _ hlast_P
            have hdep : p.arrival < (lastA g).departure := by
              have := hkeys x hx_mem
              rw [hc] at this
              exact this
            have hcov : coversB p.arrival (lastA g) = true := by
              simp only [coversB, Bool.and_eq_true, decide_eq_true_eq]
              exact ⟨harr, hdep⟩
            have hpos : 0 < g.countP (coversB p.arrival) :=
              List.countP_pos_iff.2 ⟨lastA g, hlast_mem, hcov⟩
            omega
          refine ⟨p.arrival, ?_⟩
          rw [hlen]
          have hSsplit : depthAt S p.arrival =
              P.countP (coversB p.arrival) + (p :: rest).countP (coversB p.arrival) := by
            rw [depthAt, hS, List.countP_append]
          have hP_ge : gates.length ≤ P.countP (coversB p.arrival) := by
            have h1 : gates.flatten.countP (coversB p.arrival) =
                P.countP (coversB p.arrival) := I4.countP_eq _
            rw [← h1, List.countP_flatten]
            exact countP_ge_length gates hgate_cov
          have hp_cov : coversB p.arrival p = true := by
            simp only [coversB, Bool.and_eq_true, decide_eq_true_eq]
            exact ⟨le_refl _, hvp⟩
          have hrest : 1 ≤ (p :: rest).countP (coversB p.arrival) := by
            rw [List.countP_cons]
            simp [hp_cov]
          omega
      obtain ⟨C1, C2, C3⟩ := ih (P ++ [p]) _ _ hS' hinv'
      rw [hstep]
      exact ⟨C1, C2, C3⟩

/-! Consequences for `interval_partitioning`. -/

theorem interval_partitioning_fst (l : List Aircraft) :
    (interval_partitioning l).1 = (interval_partitioning l).2.length := by
  by_cases hl : l.isEmpty <;> simp [interval_partitioning, hl]

theorem interval_partitioning_inv (l : List Aircraft) :
    (interval_partitioning l).2.flatten.Perm l ∧
    (∀ g ∈ (interval_partitioning l).2, List.Chain' gateStep g) ∧
    ((∀ a ∈ l, validA a) → ∃ t, (interval_partitioning l).1 ≤ depthAt l t) := by
  by_cases hl : l.isEmpty
  · have hnil : l = [] := by simpa [List.isEmpty_iff] using hl
    subst hnil
    refine ⟨by simp [interval_partitioning], by simp [interval_partitioning], ?_⟩
    intro _
    exact ⟨0, by simp [interval_partitioning]⟩
  · have hIP : interval_partitioning l =
        ((ipLoop (manual_sort_by_arrival l) [] []).length,
         ipLoop (manual_sort_by_arrival l) [] []) := by
      simp [interval_partitioning, hl]
    have hsort := manual_sort_sorted l
    have hperm := manual_sort_perm l
    have hinv0 : HeapInv (manual_sort_by_arrival l) [] [] [] := by
      refine ⟨by simp, ?_, List.Pairwise.nil, by simp, ?_, ?_⟩
      · intro x hx; cases hx
      · intro g hg; cases hg
      · intro _; exact ⟨0, by simp⟩
    obtain ⟨C1, C2, C3⟩ := ipLoop_master (manual_sort_by_arrival l) hsort
      (manual_sort_by_arrival l) [] [] [] (by simp) hinv0
    rw [hIP]
    refine ⟨C1.trans hperm, C2, ?_⟩
    intro hv
    obtain ⟨t, ht⟩ := C3 (fun a ha => hv a (hperm.mem_iff.1 ha))
    refine ⟨t, ?_⟩
    have hd : depthAt (manual_sort_by_arrival l) t = depthAt l t := hperm.countP_eq _
    rw [← hd]
    exact ht

theorem countP_sum_le_length {p : Aircraft → Bool} :
    ∀ (L : List (List Aircraft)), (∀ g ∈ L, g.countP p ≤ 1) →
      (L.map (List.countP p)).sum ≤ L.length := by
  intro L
  induction L with
  | nil => intro _; simp
  | cons g L' ih =>
    intro h
    have h1 := h g (by simp)
    have h2 := ih (fun g' hg' => h g' (List.mem_cons_of_mem g hg'))
    simp only [List.map_cons, List.sum_cons, List.length_cons]
    omega

theorem interval_partitioning_depth_le {l : List Aircraft} (hv : ∀ a ∈ l, validA a)
    (t : Nat) : depthAt l t ≤ (interval_partitioning l).1 := by
  obtain ⟨C1, C2, _⟩ := interval_partitioning_inv l
  have hvg : ∀ g ∈ (interval_partitioning l).2, ∀ a ∈ g, validA a := by
    intro g hg a ha
    exact hv a (C1.mem_iff.1 (List.mem_flatten_of_mem hg ha))
  have h1 : depthAt l t = (interval_partitioning l).2.flatten.countP (coversB t) :=
    (C1.countP_eq _).symm
  rw [h1, List.countP_flatten, interval_partitioning_fst]
  apply countP_sum_le_length
  intro g hg
  exact countP_covers_le_one t (C2 g hg) (hvg g hg)

/-! Lemmas about `assign_flight_incrementally`. -/

theorem gatesGetD_cons_zero (g : List Aircraft) (rest : List (List Aircraft)) :
    (g :: rest).getD 0 [] = g := rfl

theorem gatesGetD_cons_succ (g : List Aircraft) (rest : List (List Aircraft)) (j : Nat) :
    (g :: rest).getD (j + 1) [] = rest.getD j [] := rfl

theorem gateHasConflict_iff (gate : List Aircraft) (new_plane : Aircraft) :
    gateHasConflict gate new_plane = true ↔
      ∃ plane ∈ gate, ¬ (new_plane.departure ≤ plane.arrival ∨
        new_plane.arrival ≥ plane.departure) := by
  simp [gateHasConflict, conflictB, List.any_eq_true, not_or]

theorem gateHasConflict_false {gate : List Aircraft} {new_plane : Aircraft}
    (h : gateHasConflict gate new_plane = false) :
    ∀ plane ∈ gate, new_plane.departure ≤ plane.arrival ∨
      new_plane.arrival ≥ plane.departure := by
  intro plane hp
  have := List.any_eq_false.1 h plane hp
  simp [conflictB, not_or] at this
  omega

theorem assign_all_conflict {gates : List (List Aircraft)} {new_plane : Aircraft}
    (h : ∀ g ∈ gates, gateHasConflict g new_plane = true) :
    assign_flight_incrementally gates new_plane = gates ++ [[new_plane]] := by
  induction gates with
  | nil => rfl
  | cons g rest ih =>
    simp only [assign_flight_incrementally]
    rw [if_pos (h g (by simp)), ih (fun g' hg' => h g' (List.mem_cons_of_mem g hg'))]
    rfl

theorem assign_first_fit_at {new_plane : Aircraft} :
    ∀ (gates : List (List Aircraft)) (i : Nat), i < gates.length →
      gateHasConflict (gates.getD i []) new_plane = false →
      (∀ j, j < i → gateHasConflict (gates.getD j []) new_plane = true) →
      assign_flight_incrementally gates new_plane =
        gates.set i (gates.getD i [] ++ [new_plane]) := by
  intro gates
  induction gates with
  | nil => intro i hi; simp at hi
  | cons g rest ih =>
    intro i hi hfree hconf
    cases i with
    | zero =>
      rw [gatesGetD_cons_zero] at hfree
      simp only [assign_flight_incrementally]
      rw [if_neg (by rw [hfree]; exact Bool.false_ne_true)]
      rfl
    | succ i' =>
      have hc0 : gateHasConflict g new_plane = true := by
        have := hconf 0 (by omega)
        rwa [gatesGetD_cons_zero] at this
      simp only [assign_flight_incrementally]
      rw [if_pos hc0]
      rw [ih i' (by simpa using hi) (by rwa [gatesGetD_cons_succ] at hfree)
        (fun j hj => by
          have := hconf (j + 1) (by omega)
          rwa [gatesGetD_cons_succ] at this)]
      rfl

theorem assign_frame' (gates : List (List Aircraft)) (new_plane : Aircraft) :
    ∃ i, i ≤ gates.length ∧
      ((i < gates.length ∧
          (assign_flight_incrementally gates new_plane).length = gates.length) ∨
       (i = gates.length ∧
          (assign_flight_incrementally gates new_plane).length = gates.length + 1)) ∧
      (∀ j, j ≠ i →
        (assign_flight_incrementally gates new_plane).getD j [] = gates.getD j []) ∧
      (assign_flight_incrementally gates new_plane).getD i [] =
        gates.getD i [] ++ [new_plane] := by
  induction gates with
  | nil =>
    refine ⟨0, by simp, Or.inr ⟨rfl, rfl⟩, ?_, rfl⟩
    intro j hj
    cases j with
    | zero => exact absurd rfl hj
    | succ j' => rfl
  | cons g rest ih =>
    by_cases hc : gateHasConflict g new_plane = true
    · obtain ⟨i, hle, hlen, hfr, hrec⟩ := ih
      have hunf : assign_flight_incrementally (g :: rest) new_plane =
          g :: assign_flight_incrementally rest new_plane := by
        simp only [assign_flight_incrementally]
        rw [if_pos hc]
      refine ⟨i + 1, by simp; omega, ?_, ?_, ?_⟩
      · rcases hlen with ⟨h1, h2⟩ | ⟨h1, h2⟩
        · exact Or.inl ⟨by simp; omega, by rw [hunf]; simp [h2]⟩
        · exact Or.inr ⟨by simp; omega, by rw [hunf]; simp [h2]⟩
      · intro j hj
        rw [hunf]
        cases j with
        | zero => rfl
        | succ j' =>
          rw [gatesGetD_cons_succ, gatesGetD_cons_succ]
          exact hfr j' (by omega)
      · rw [hunf, gatesGetD_cons_succ, gatesGetD_cons_succ]
        exact hrec
    · have hunf : assign_flight_incrementally (g :: rest) new_plane =
          (g ++ [new_plane]) :: rest := by
        simp only [assign_flight_incrementally]
        rw [if_neg hc]
      refine ⟨0, by simp, Or.inl ⟨by simp, by rw [hunf]; simp⟩, ?_, by rw [hunf]; rfl⟩
      intro j hj
      rw [hunf]
      cases j with
      | zero => exact absurd rfl hj
      | succ j' => rfl

theorem assign_preserves_noOv {gates : List (List Aircraft)} {new_plane : Aircraft}
    (h : ∀ g ∈ gates, List.Pairwise noOv g) :
    ∀ g ∈ assign_flight_incrementally gates new_plane, List.Pairwise noOv g := by
  induction gates with
  | nil =>
    intro g hg
    have : g = [new_plane] := by simpa [assign_flight_incrementally] using hg
    rw [this]
    exact List.pairwise_singleton _ _
  | cons g0 rest ih =>
    intro g hg
    simp only [assign_flight_incrementally] at hg
    by_cases hc : gateHasConflict g0 new_plane = true
    · rw [if_pos hc] at hg
      rcases List.mem_cons.1 hg with h1 | h2
      · rw [h1]
        exact h g0 (by simp)
      · exact ih (fun g' hg' => h g' (List.mem_cons_of_mem g0 hg')) g h2
    · rw [if_neg hc] at hg
      rcases List.mem_cons.1 hg with h1 | h2
      · rw [h1]
        rw [List.pairwise_append]
        refine ⟨h g0 (by simp), List.pairwise_singleton _ _, ?_⟩
        intro a ha b hb
        have hb' : b = new_plane := by simpa using hb
        subst hb'
        have hnc := gateHasConflict_false (Bool.not_eq_true _ ▸ hc) a ha
        unfold noOv
        omega
      · exact h g (List.mem_cons_of_mem g0 h2)

/-! Claim theorems. -/

/-- C1: For every finite list of valid tasks (each with departure > arrival),
the gate count returned by `interval_partitioning` equals the maximum number
of tasks whose half-open intervals share a common instant: the count bounds
the overlap depth at every instant, and on non-empty input some instant
attains it exactly; the empty list yields 0 gates and a single task yields
1 gate. -/
theorem interval_partitioning_gate_count (l : List Aircraft)
    (hv : ∀ a ∈ l, a.arrival < a.departure) :
    (∀ t, depthAt l t ≤ (interval_partitioning l).1) ∧
    (l ≠ [] → ∃ t, depthAt l t = (interval_partitioning l).1) ∧
    interval_partitioning ([] : List Aircraft) = (0, []) ∧
    (∀ a : Aircraft, (interval_partitioning [a]).1 = 1) := by
  have hub : ∀ t, depthAt l t ≤ (interval_partitioning l).1 :=
    interval_partitioning_depth_le hv
  refine ⟨hub, ?_, rfl, fun a => rfl⟩
  intro hne
  obtain ⟨_, _, C3⟩ := interval_partitioning_inv l
  obtain ⟨t, ht⟩ := C3 hv
  exact ⟨t, le_antisymm (hub t) ht⟩

/-- Witness for C1 at the spec's concrete six-task scenario. -/
theorem interval_partitioning_gate_count_witness :
    depthAt [Aircraft.mk "a" 540 630, Aircraft.mk "b" 540 750, Aircraft.mk "d" 660 750,
        Aircraft.mk "e" 660 840, Aircraft.mk "f" 780 870, Aircraft.mk "g" 780 870] 780 ≤
      (interval_partitioning [Aircraft.mk "a" 540 630, Aircraft.mk "b" 540 750,
        Aircraft.mk "d" 660 750, Aircraft.mk "e" 660 840, Aircraft.mk "f" 780 870,
        Aircraft.mk "g" 780 870]).1 ∧
    (∃ t, depthAt [Aircraft.mk "a" 540 630, Aircraft.mk "b" 540 750, Aircraft.mk "d" 660 750,
        Aircraft.mk "e" 660 840, Aircraft.mk "f" 780 870, Aircraft.mk "g" 780 870] t =
      (interval_partitioning [Aircraft.mk "a" 540 630, Aircraft.mk "b" 540 750,
        Aircraft.mk "d" 660 750, Aircraft.mk "e" 660 840, Aircraft.mk "f" 780 870,
        Aircraft.mk "g" 780 870]).1) := by
  have h := interval_partitioning_gate_count [Aircraft.mk "a" 540 630, Aircraft.mk "b" 540 750,
    Aircraft.mk "d" 660 750, Aircraft.mk "e" 660 840, Aircraft.mk "f" 780 870,
    Aircraft.mk "g" 780 870] (by decide)
  exact ⟨h.1 780, h.2.1 (by decide)⟩

/-- C2 counterexample: the Lomuto quicksort of `manual_sort_by_arrival` is not
stable.  On the input below, tasks A and B have equal arrival 1 and appear in
the order A, B, yet the sorted output is C, B, A: the equal-arrival pair comes
out in the opposite of its input order. -/
theorem manual_sort_not_stable :
    (Aircraft.mk "A" 1 2).arrival = (Aircraft.mk "B" 1 2).arrival ∧
    manual_sort_by_arrival
        [Aircraft.mk "A" 1 2, Aircraft.mk "B" 1 2, Aircraft.mk "C" 0 1] =
      [Aircraft.mk "C" 0 1, Aircraft.mk "B" 1 2, Aircraft.mk "A" 1 2] ∧
    List.indexOf (Aircraft.mk "A" 1 2)
        [Aircraft.mk "A" 1 2, Aircraft.mk "B" 1 2, Aircraft.mk "C" 0 1] <
      List.indexOf (Aircraft.mk "B" 1 2)
        [Aircraft.mk "A" 1 2, Aircraft.mk "B" 1 2, Aircraft.mk "C" 0 1] ∧
    List.indexOf (Aircraft.mk "B" 1 2) (manual_sort_by_arrival
        [Aircraft.mk "A" 1 2, Aircraft.mk "B" 1 2, Aircraft.mk "C" 0 1]) <
      List.indexOf (Aircraft.mk "A" 1 2) (manual_sort_by_arrival
        [Aircraft.mk "A" 1 2, Aircraft.mk "B" 1 2, Aircraft.mk "C" 0 1]) := by
  refine ⟨rfl, by decide, by decide, by decide⟩

/-- C2 (amended): the sort used by the engine sorts ascending by start time
and returns a permutation of its input, but it is not stable — tasks with
equal start times may come out in a different relative order than in the
input. -/
theorem manual_sort_sorts (l : List Aircraft) :
    (manual_sort_by_arrival l).Perm l ∧
    List.Pairwise arrLE (manual_sort_by_arrival l) :=
  ⟨manual_sort_perm l, manual_sort_sorted l⟩

/-- C3: in every partition produced by `interval_partitioning` on valid
tasks, and in every partition produced by extending a no-overlap partition
with `assign_flight_incrementally`, each gate is pairwise non-overlapping:
for distinct members T1, T2 of a gate, T1 departs before (or as) T2 arrives
or vice versa. -/
theorem no_overlap_invariant :
    (∀ l : List Aircraft, (∀ a ∈ l, a.arrival < a.departure) →
       ∀ g ∈ (interval_partitioning l).2, List.Pairwise noOv g) ∧
    (∀ (gate_assignments : List (List Aircraft)) (new_plane : Aircraft),
       (∀ g ∈ gate_assignments, List.Pairwise noOv g) →
       ∀ g ∈ assign_flight_incrementally gate_assignments new_plane,
         List.Pairwise noOv g) := by
  constructor
  · intro l hv g hg
    obtain ⟨C1, C2, _⟩ := interval_partitioning_inv l
    apply pairwise_noOv_of_chain (C2 g hg)
    intro x hx
    exact hv x (C1.mem_iff.1 (List.mem_flatten_of_mem hg hx))
  · intro gates new_plane h
    exact assign_preserves_noOv h

/-- Witness for C3 on a concrete two-task batch input. -/
theorem no_overlap_invariant_witness :
    List.Pairwise noOv ((interval_partitioning
      [Aircraft.mk "x" 0 3, Aircraft.mk "y" 1 4]).2.getD 0 []) := by
  have h := no_overlap_invariant
  exact h.1 [Aircraft.mk "x" 0 3, Aircraft.mk "y" 1 4] (by decide) _ (by decide)

/-- C4: incremental insertion is first-fit.  The conflict test for a gate is
true iff some member of the gate (any member, not only the last) conflicts
with the new task in the sense NOT (new.departure <= member.arrival OR
new.arrival >= member.departure); the new task is appended to the first gate
whose test is false, and when every gate's test is true exactly one new gate
holding only the new task is appended at the end. -/
theorem assign_first_fit (gate_assignments : List (List Aircraft)) (new_plane : Aircraft) :
    (∀ gate : List Aircraft,
       gateHasConflict gate new_plane = true ↔
         ∃ plane ∈ gate, ¬ (new_plane.departure ≤ plane.arrival ∨
           new_plane.arrival ≥ plane.departure)) ∧
    ((∀ g ∈ gate_assignments, gateHasConflict g new_plane = true) →
       assign_flight_incrementally gate_assignments new_plane =
         gate_assignments ++ [[new_plane]]) ∧
    (∀ i, i < gate_assignments.length →
       gateHasConflict (gate_assignments.getD i []) new_plane = false →
       (∀ j, j < i → gateHasConflict (gate_assignments.getD j []) new_plane = true) →
       assign_flight_incrementally gate_assignments new_plane =
         gate_assignments.set i (gate_assignments.getD i [] ++ [new_plane])) :=
  ⟨fun gate => gateHasConflict_iff gate new_plane,
   fun h => assign_all_conflict h,
   fun i hi hfree hconf => assign_first_fit_at gate_assignments i hi hfree hconf⟩

/-- Witness for C4: with gate 0 conflicting and gate 1 free, the new plane is
appended to gate 1. -/
theorem assign_first_fit_witness :
    assign_flight_incrementally [[Aircraft.mk "A" 0 10], [Aircraft.mk "C" 20 30]]
        (Aircraft.mk "B" 5 15) =
      [[Aircraft.mk "A" 0 10], [Aircraft.mk "C" 20 30]].set 1
        ([[Aircraft.mk "A" 0 10], [Aircraft.mk "C" 20 30]].getD 1 [] ++
          [Aircraft.mk "B" 5 15]) := by
  have h := assign_first_fit [[Aircraft.mk "A" 0 10], [Aircraft.mk "C" 20 30]]
    (Aircraft.mk "B" 5 15)
  exact h.2.2 1 (by decide) (by decide) (by decide)

/-- C5: incremental insertion never disturbs existing assignments: there is
one receiving index i (an existing gate, or a single new gate appended at the
end); every gate at an index other than i is unchanged, and the gate at i
equals its prior contents with the new task appended at the end. -/
theorem assign_incremental_frame (gate_assignments : List (List Aircraft))
    (new_plane : Aircraft) :
    ∃ i, i ≤ gate_assignments.length ∧
      ((i < gate_assignments.length ∧
          (assign_flight_incrementally gate_assignments new_plane).length =
            gate_assignments.length) ∨
       (i = gate_assignments.length ∧
          (assign_flight_incrementally gate_assignments new_plane).length =
            gate_assignments.length + 1)) ∧
      (∀ j, j ≠ i →
        (assign_flight_incrementally gate_assignments new_plane).getD j [] =
          gate_assignments.getD j []) ∧
      (assign_flight_incrementally gate_assignments new_plane).getD i [] =
        gate_assignments.getD i [] ++ [new_plane] :=
  assign_frame' gate_assignments new_plane

/-- C6: every task of a valid input list appears in exactly one gate of the
partition returned by `interval_partitioning`: the concatenation of the gates
is a permutation of the input (so each input occurrence is placed exactly
once), and membership in the input coincides with membership in some gate. -/
theorem interval_partitioning_coverage (l : List Aircraft)
    (_hv : ∀ a ∈ l, a.arrival < a.departure) :
    (interval_partitioning l).2.flatten.Perm l ∧
    (∀ a : Aircraft, a ∈ l ↔ ∃ g ∈ (interval_partitioning l).2, a ∈ g) := by
  obtain ⟨C1, _, _⟩ := interval_partitioning_inv l
  refine ⟨C1, ?_⟩
  intro a
  rw [← C1.mem_iff]
  exact List.mem_flatten

/-- Witness for C6 on a concrete three-task input. -/
theorem interval_partitioning_coverage_witness :
    (interval_partitioning [Aircraft.mk "x" 0 3, Aircraft.mk "y" 1 4,
      Aircraft.mk "z" 3 6]).2.flatten.Perm
      [Aircraft.mk "x" 0 3, Aircraft.mk "y" 1 4, Aircraft.mk "z" 3 6] := by
  have h := interval_partitioning_coverage
    [Aircraft.mk "x" 0 3, Aircraft.mk "y" 1 4, Aircraft.mk "z" 3 6] (by decide)
  exact h.1

/-- C7: after any (non-empty) deletion the previous partition is discarded;
if tasks remain, the stored gate count and partition equal the output of
`interval_partitioning` on the remaining tasks, and if no tasks remain the
partition is empty (zero resources). -/
theorem delete_recomputes (s : PlanState) (selected_rows : List Nat)
    (h : selected_rows ≠ []) :
    ((delete_selected_aircraft s selected_rows).aircraft_list ≠ [] →
       ((delete_selected_aircraft s selected_rows).gates_needed,
        (delete_selected_aircraft s selected_rows).gate_assignments) =
         interval_partitioning (delete_selected_aircraft s selected_rows).aircraft_list) ∧
    ((delete_selected_aircraft s selected_rows).aircraft_list = [] →
       (delete_selected_aircraft s selected_rows).gate_assignments = []) := by
  have hne : selected_rows.isEmpty = false := by
    cases selected_rows with
    | nil => exact absurd rfl h
    | cons a t => rfl
  have hne' : ¬ selected_rows.isEmpty = true := by
    rw [hne]
    exact Bool.false_ne_true
  set R := (sortRowsDesc selected_rows.dedup).foldl (fun l r => l.eraseIdx r)
    s.aircraft_list with hR
  by_cases hrem : R.isEmpty = true
  · have hd : delete_selected_aircraft s selected_rows =
        { s with aircraft_list := R, gate_assignments := [] } := by
      rw [delete_selected_aircraft, if_neg hne']
      dsimp only
      rw [← hR, if_pos hrem]
    rw [hd]
    constructor
    · intro hcon
      exact absurd (List.isEmpty_iff.1 hrem) hcon
    · intro _
      rfl
  · have hd : delete_selected_aircraft s selected_rows =
        ⟨R, (interval_partitioning R).1, (interval_partitioning R).2⟩ := by
      rw [delete_selected_aircraft, if_neg hne']
      dsimp only
      rw [← hR, if_neg hrem]
    rw [hd]
    constructor
    · intro _
      rfl
    · intro hcon
      have hcon' : R = [] := hcon
      exact absurd (by rw [hcon']; rfl) hrem

/-- Witness for C7: deleting row 0 from a two-aircraft state recomputes the
partition of the remaining task. -/
theorem delete_recomputes_witness :
    ((delete_selected_aircraft ⟨[Aircraft.mk "A" 0 3, Aircraft.mk "B" 1 4], 2,
        [[Aircraft.mk "A" 0 3], [Aircraft.mk "B" 1 4]]⟩ [0]).gates_needed,
     (delete_selected_aircraft ⟨[Aircraft.mk "A" 0 3, Aircraft.mk "B" 1 4], 2,
        [[Aircraft.mk "A" 0 3], [Aircraft.mk "B" 1 4]]⟩ [0]).gate_assignments) =
      interval_partitioning (delete_selected_aircraft
        ⟨[Aircraft.mk "A" 0 3, Aircraft.mk "B" 1 4], 2,
         [[Aircraft.mk "A" 0 3], [Aircraft.mk "B" 1 4]]⟩ [0]).aircraft_list := by
  have h := delete_recomputes ⟨[Aircraft.mk "A" 0 3, Aircraft.mk "B" 1 4], 2,
    [[Aircraft.mk "A" 0 3], [Aircraft.mk "B" 1 4]]⟩ [0] (by decide)
  exact h.1 (by decide)

/-- C8: adding a task whose departure is not after its arrival is rejected
atomically: `add_aircraft` returns the error message and the state unchanged —
both the aircraft list and the gate assignments are exactly as before. -/
theorem add_aircraft_rejects_invalid (s : PlanState) (code : String)
    (arrival departure : Nat) (h : departure ≤ arrival) :
    add_aircraft s code arrival departure =
      (s, some "Departure must be after arrival") ∧
    (add_aircraft s code arrival departure).1.aircraft_list = s.aircraft_list ∧
    (add_aircraft s code arrival departure).1.gate_assignments = s.gate_assignments := by
  have h1 : add_aircraft s code arrival departure =
      (s, some "Departure must be after arrival") := by
    simp only [add_aircraft, if_pos h]
  exact ⟨h1, by rw [h1], by rw [h1]⟩

/-- Witness for C8 at a concrete state and a degenerate interval. -/
theorem add_aircraft_rejects_invalid_witness :
    add_aircraft ⟨[Aircraft.mk "A" 0 3], 1, [[Aircraft.mk "A" 0 3]]⟩ "N" 5 5 =
      (⟨[Aircraft.mk "A" 0 3], 1, [[Aircraft.mk "A" 0 3]]⟩,
       some "Departure must be after arrival") := by
  have h := add_aircraft_rejects_invalid
    ⟨[Aircraft.mk "A" 0 3], 1, [[Aircraft.mk "A" 0 3]]⟩ "N" 5 5 (by decide)
  exact h.1

/-- C9: half-open boundary semantics.  If A departs exactly when B arrives,
the batch gate-reuse test accepts B on a gate keyed by A's departure, the
incremental conflict test reports no conflict between A and B in either
direction, and incremental insertion places B into A's gate. -/
theorem boundary_touching (A B : Aircraft) (h : A.departure = B.arrival) :
    (∀ (g : Nat) (rest : List (Nat × Nat)),
       canReuse ((A.departure, g) :: rest) B = true) ∧
    conflictB B A = false ∧ conflictB A B = false ∧
    assign_flight_incrementally [[A]] B = [[A, B]] := by
  refine ⟨?_, ?_, ?_, ?_⟩
  · intro g rest
    simp [canReuse, h]
  · rw [conflictB, Bool.not_eq_false', Bool.or_eq_true]
    right
    rw [decide_eq_true_eq, ge_iff_le, ← h]
  · rw [conflictB, Bool.not_eq_false', Bool.or_eq_true]
    left
    rw [decide_eq_true_eq, h]
  · have hnc : gateHasConflict [A] B = false := by
      simp only [gateHasConflict, List.any_eq_false]
      intro x hx
      have hxa : x = A := by simpa using hx
      subst hxa
      rw [conflictB, Bool.not_eq_true', Bool.not_eq_false, Bool.or_eq_true]
      right
      rw [decide_eq_true_eq, ge_iff_le, ← h]
    simp only [assign_flight_incrementally]
    rw [if_neg (by rw [hnc]; exact Bool.false_ne_true)]
    rfl

/-- Witness for C9 with A = [0,5) and B = [5,9). -/
theorem boundary_touching_witness :
    canReuse [((Aircraft.mk "A" 0 5).departure, 0)] (Aircraft.mk "B" 5 9) = true ∧
    conflictB (Aircraft.mk "B" 5 9) (Aircraft.mk "A" 0 5) = false ∧
    conflictB (Aircraft.mk "A" 0 5) (Aircraft.mk "B" 5 9) = false ∧
    assign_flight_incrementally [[Aircraft.mk "A" 0 5]] (Aircraft.mk "B" 5 9) =
      [[Aircraft.mk "A" 0 5, Aircraft.mk "B" 5 9]] := by
  have h := boundary_touching (Aircraft.mk "A" 0 5) (Aircraft.mk "B" 5 9) rfl
  exact ⟨h.1 0 [], h.2.1, h.2.2.1, h.2.2.2⟩

/-- C10: on non-empty input, `interval_partitioning` sorts the caller's
argument list in place — after the call the caller's list (modelled by
`interval_partitioning_arg`) is `manual_sort_by_arrival` of the input, an
ascending-arrival permutation of the input — and the gates of the returned
partition hold exactly the tasks of that list (their concatenation is a
permutation of it). -/
theorem interval_partitioning_mutates_argument (l : List Aircraft) (h : l ≠ []) :
    (interval_partitioning_arg l).Perm l ∧
    List.Pairwise arrLE (interval_partitioning_arg l) ∧
    interval_partitioning_arg l = manual_sort_by_arrival l ∧
    (interval_partitioning l).2.flatten.Perm (interval_partitioning_arg l) := by
  have hne : l.isEmpty = false := by
    cases l with
    | nil => exact absurd rfl h
    | cons a t => rfl
  have harg : interval_partitioning_arg l = manual_sort_by_arrival l := by
    simp [interval_partitioning_arg, hne]
  obtain ⟨C1, _, _⟩ := interval_partitioning_inv l
  rw [harg]
  exact ⟨manual_sort_perm l, manual_sort_sorted l, rfl,
    C1.trans (manual_sort_perm l).symm⟩

/-- Witness for C10 on a concrete two-task input. -/
theorem interval_partitioning_mutates_argument_witness :
    (interval_partitioning_arg [Aircraft.mk "y" 4 6, Aircraft.mk "x" 0 3]).Perm
      [Aircraft.mk "y" 4 6, Aircraft.mk "x" 0 3] ∧
    List.Pairwise arrLE (interval_partitioning_arg
      [Aircraft.mk "y" 4 6, Aircraft.mk "x" 0 3]) := by
  have h := interval_partitioning_mutates_argument
    [Aircraft.mk "y" 4 6, Aircraft.mk "x" 0 3] (by decide)
  exact ⟨h.1, h.2.1⟩
